import Mathlib

/-!
Shallow embedding of the Tour of Heroes application: the data-access service
(`src/app/hero.service.ts`), the hero list view
(`src/app/heroes/heroes.component.ts`) and the incremental search pipeline
(`src/app/hero-search/hero-search.component.ts`).

HTTP round trips are made explicit: each service method is a function from the
outcome of its request (`HttpResult`) to the value its observable emits, the
strings appended to the shared message log, and the errors written to the
diagnostic console. The reactive search pipeline is modelled operationally on a
timed list of keystroke events.
-/

/-- Hero record (`src/app/hero.ts`): an identifier and a display name. -/
structure Hero where
  id : Nat
  name : String
deriving DecidableEq, Repr

/-- A transport failure (Angular `HttpErrorResponse`): carries a message. -/
structure HttpError where
  message : String
deriving DecidableEq, Repr

/-- Outcome of an HTTP round trip: the successful body or a transport failure. -/
abbrev HttpResult (α : Type) : Type := Except HttpError α

/-- What a service operation produces, made explicit: the value the returned
observable emits to its subscriber, the strings appended to the shared message
log (via `MessageService.add`), and the errors written to the console. -/
structure OpResult (α : Type) where
  value : α
  messages : List String
  consoleErrors : List HttpError
deriving DecidableEq, Repr

/-- JS `String.prototype.trim`, modelled on the string's character list:
drop whitespace from the front, then from the back. -/
def jsTrim (s : String) : String :=
  ⟨((s.data.dropWhile Char.isWhitespace).reverse.dropWhile Char.isWhitespace).reverse⟩

/-- `HeroService.log`: tag a message with the service name before handing it to
`MessageService.add`. -/
def logMsg (message : String) : String :=
  "HeroService: " ++ message

/-- `HeroService.handleError operation result`: write the error to the console,
log one failure message, and resolve to the caller-supplied fallback `result`
(`of(result as T)`). -/
def handleError {α : Type} (operation : String) (result : α) (error : HttpError) :
    OpResult α :=
  { value := result
    messages := [logMsg (operation ++ " failed: " ++ error.message)]
    consoleErrors := [error] }

/-- URL to the web api (`private heroesUrl`). -/
def heroesUrl : String := "api/heroes"

/-- `HeroService.getHeroes`: GET the hero list; log `fetched heroes` on success;
on failure fall back to the empty list via `handleError('getHeroes', [])`. -/
def getHeroes (resp : HttpResult (List Hero)) : OpResult (List Hero) :=
  match resp with
  | Except.ok heroes =>
    { value := heroes, messages := [logMsg "fetched heroes"], consoleErrors := [] }
  | Except.error e => handleError "getHeroes" [] e

/-- `HeroService.getHero`: GET a hero by id; on failure `handleError<Hero>` has
no fallback argument, so the operation resolves to the absent value (`none`). -/
def getHero (id : Nat) (resp : HttpResult Hero) : OpResult (Option Hero) :=
  match resp with
  | Except.ok hero =>
    { value := some hero
      messages := [logMsg ("fetched hero id=" ++ toString id)]
      consoleErrors := [] }
  | Except.error e => handleError ("getHero id=" ++ toString id) none e

/-- `HeroService.updateHero`: PUT the full hero record; the response body is
ignored by callers (`Observable<any>`), modelled as `Unit`; on failure
`handleError<any>('updateHero')` resolves to the absent value. -/
def updateHero (hero : Hero) (resp : HttpResult Unit) : OpResult (Option Unit) :=
  match resp with
  | Except.ok u =>
    { value := some u
      messages := [logMsg ("updated hero id=" ++ toString hero.id)]
      consoleErrors := [] }
  | Except.error e => handleError "updateHero" none e

/-- `HeroService.addHero`: POST a new hero; the server's response carries the
assigned id, which the success log reports; on failure
`handleError<Hero>('addHero')` resolves to the absent value. -/
def addHero (resp : HttpResult Hero) : OpResult (Option Hero) :=
  match resp with
  | Except.ok hero =>
    { value := some hero
      messages := [logMsg ("added hero with id=" ++ toString hero.id)]
      consoleErrors := [] }
  | Except.error e => handleError "addHero" none e

/-- Argument of `deleteHero`: TypeScript `Hero | number`. -/
inductive HeroRef where
  | record (hero : Hero)
  | ident (id : Nat)
deriving DecidableEq, Repr

/-- The id `deleteHero` works with:
`const id = typeof hero === 'number' ? hero : hero.id`. -/
def HeroRef.toId : HeroRef → Nat
  | HeroRef.record hero => hero.id
  | HeroRef.ident id => id

/-- URL of the DELETE request: the heroes resource URL plus the id. -/
def deleteHeroUrl (hero : HeroRef) : String :=
  heroesUrl ++ "/" ++ toString hero.toId

/-- `HeroService.deleteHero`: DELETE by the resolved id; on failure
`handleError<Hero>('deleteHero')` resolves to the absent value. -/
def deleteHero (hero : HeroRef) (resp : HttpResult Hero) : OpResult (Option Hero) :=
  match resp with
  | Except.ok h =>
    { value := some h
      messages := [logMsg ("deleted hero id=" ++ toString hero.toId)]
      consoleErrors := [] }
  | Except.error e => handleError "deleteHero" none e

/-- URL of the GET request `searchHeroes term` issues; `none` when the term is
blank (`!term.trim()`) and no request is made at all. -/
def searchHeroesRequest (term : String) : Option String :=
  if jsTrim term = "" then none else some ("api/heroes/?name=" ++ term)

/-- `HeroService.searchHeroes`: a blank term returns `of([])` at once, with no
request and no log; otherwise GET by name, log on success, and fall back to the
empty list on failure via `handleError<Hero[]>('searchHeroes', [])`. -/
def searchHeroes (term : String) (resp : HttpResult (List Hero)) :
    OpResult (List Hero) :=
  if jsTrim term = "" then { value := [], messages := [], consoleErrors := [] }
  else
    match resp with
    | Except.ok heroes =>
      { value := heroes
        messages := [logMsg ("found heroes matching \"" ++ term ++ "\"")]
        consoleErrors := [] }
    | Except.error e => handleError "searchHeroes" [] e

/-- An entry of the view's `heroes` array. A failed create resolves to the
absent value, which the `add` subscription pushes unchecked, so an entry is an
`Option Hero`. -/
abbrev HeroEntry : Type := Option Hero

/-- The POST body `HeroesComponent.add` sends: the TS object `{ name }`, which
carries no id. -/
structure CreatePayload where
  name : String
deriving DecidableEq, Repr

/-- The create request `HeroesComponent.add` issues after `name = name.trim()`:
`none` when the trimmed name is empty and the method returns at once. -/
def componentAddRequest (name : String) : Option CreatePayload :=
  if jsTrim name = "" then none else some ⟨jsTrim name⟩

/-- The view's heroes list after `HeroesComponent.add` runs and its subscription
fires: a blank name leaves the list untouched; otherwise whatever value the
create resolved to is pushed onto the list. -/
def componentAdd (heroes : List HeroEntry) (name : String) (resp : HttpResult Hero) :
    List HeroEntry :=
  if jsTrim name = "" then heroes
  else heroes ++ [(addHero resp).value]

/-- `HeroesComponent.delete`: the view immediately replaces its list by
`this.heroes.filter(h => h !== hero)` and issues the backing delete; the
subscription has no callback, so the request's outcome never touches the list.
Returns the new list together with the service operation's outcome. -/
def componentDelete (heroes : List HeroEntry) (hero : Hero) (resp : HttpResult Hero) :
    List HeroEntry × OpResult (Option Hero) :=
  (heroes.filter (fun h => h ≠ some hero), deleteHero (HeroRef.record hero) resp)

/-- A keystroke event pushed into the search subject: arrival time and term. -/
structure KeyEvent where
  time : Nat
  term : String
deriving DecidableEq, Repr

/-- The pipeline's quiet interval: `debounceTime(300)`. -/
def debounceInterval : Nat := 300

/-- `debounceTime`: an event is suppressed when the next event arrives before
the quiet interval has elapsed; otherwise it survives (and the final event
always survives once the stream goes quiet). -/
def debounce (interval : Nat) : List KeyEvent → List KeyEvent
  | [] => []
  | [e] => [e]
  | e :: f :: rest =>
    if f.time < e.time + interval then debounce interval (f :: rest)
    else e :: debounce interval (f :: rest)

/-- A surviving event is emitted by `debounceTime` once the quiet interval has
elapsed, at its arrival time plus the interval. -/
def emitAt (interval : Nat) (e : KeyEvent) : KeyEvent :=
  ⟨e.time + interval, e.term⟩

/-- `distinctUntilChanged` past the first emission: drop an event whose term
equals the most recently emitted term. -/
def distinctFrom (prev : String) : List KeyEvent → List KeyEvent
  | [] => []
  | e :: rest =>
    if e.term = prev then distinctFrom prev rest
    else e :: distinctFrom e.term rest

/-- `distinctUntilChanged`: always emit the first event, then compare each event
with the most recently emitted one. -/
def distinctUntilChanged : List KeyEvent → List KeyEvent
  | [] => []
  | e :: rest => e :: distinctFrom e.term rest

/-- How the backing store answers search requests: for a request issued at a
given time with a given term, the response's arrival time and body. -/
abbrev SearchOracle : Type := Nat → String → Nat × HttpResult (List Hero)

/-- The inner observable `switchMap` subscribes for one lookup event: a blank
term is answered synchronously by `of([])` with no request; otherwise the HTTP
response arrives per the oracle and is mapped through `searchHeroes` (a failure
becomes the empty list). Returns the emission time and the emitted hero list. -/
def innerEmission (oracle : SearchOracle) (e : KeyEvent) : Nat × List Hero :=
  if jsTrim e.term = "" then (e.time, [])
  else ((oracle e.time e.term).1, (searchHeroes e.term (oracle e.time e.term).2).value)

/-- A result delivered downstream by the pipeline: when its lookup was issued,
when it was delivered, the triggering term, and the hero list. -/
structure Delivery where
  issued : Nat
  time : Nat
  term : String
  result : List Hero
deriving DecidableEq, Repr

/-- `switchMap`: each lookup's inner observable is unsubscribed the moment the
next lookup event arrives, so its emission is delivered only when it occurs
strictly before the next lookup; the last lookup is never superseded. -/
def switchDeliver (oracle : SearchOracle) : List KeyEvent → List Delivery
  | [] => []
  | [e] => [⟨e.time, (innerEmission oracle e).1, e.term, (innerEmission oracle e).2⟩]
  | e :: f :: rest =>
    if (innerEmission oracle e).1 < f.time then
      ⟨e.time, (innerEmission oracle e).1, e.term, (innerEmission oracle e).2⟩
        :: switchDeliver oracle (f :: rest)
    else switchDeliver oracle (f :: rest)

/-- The lookup events of the pipeline: the keystrokes debounced (each survivor
emitted after the quiet interval) and deduplicated. -/
def pipelineLookups (events : List KeyEvent) : List KeyEvent :=
  distinctUntilChanged ((debounce debounceInterval events).map (emitAt debounceInterval))

/-- `HeroSearchComponent.ngOnInit`: the `heroes$` stream, which pipes keystrokes
through `debounceTime(300)`, `distinctUntilChanged` and
`switchMap(term => searchHeroes(term))`. -/
def heroesStream (oracle : SearchOracle) (events : List KeyEvent) : List Delivery :=
  switchDeliver oracle (pipelineLookups events)

/-- Group a list into maximal runs of consecutive elements related by `R`. -/
def runsBy {α : Type} (R : α → α → Prop) [DecidableRel R] : List α → List (List α)
  | [] => []
  | [a] => [[a]]
  | a :: b :: rest =>
    match runsBy R (b :: rest) with
    | [] => [[a]]
    | r :: rs => if R a b then (a :: r) :: rs else [a] :: r :: rs

/-- A burst: a maximal run of consecutive keystrokes, each arriving less than
the debounce interval after its predecessor. -/
def bursts (events : List KeyEvent) : List (List KeyEvent) :=
  runsBy (fun a b => b.time < a.time + debounceInterval) events

/-- C1: every CRUD operation of the service, when its HTTP request fails with
error `e`, writes exactly `e` to the console, appends exactly one failure
message to the shared message log, and resolves to its fallback value: the empty
list for `getHeroes` and `searchHeroes`, the absent value for the others. -/
theorem crud_failure_policy (e : HttpError) (id : Nat) (hero : Hero) (ref : HeroRef)
    (term : String) (hterm : jsTrim term ≠ "") :
    getHeroes (Except.error e)
      = ⟨[], [logMsg ("getHeroes failed: " ++ e.message)], [e]⟩
    ∧ (getHeroes (Except.error e)).messages.length = 1
    ∧ getHero id (Except.error e)
      = ⟨none, [logMsg ("getHero id=" ++ toString id ++ " failed: " ++ e.message)], [e]⟩
    ∧ addHero (Except.error e)
      = ⟨none, [logMsg ("addHero failed: " ++ e.message)], [e]⟩
    ∧ updateHero hero (Except.error e)
      = ⟨none, [logMsg ("updateHero failed: " ++ e.message)], [e]⟩
    ∧ deleteHero ref (Except.error e)
      = ⟨none, [logMsg ("deleteHero failed: " ++ e.message)], [e]⟩
    ∧ searchHeroes term (Except.error e)
      = ⟨[], [logMsg ("searchHeroes failed: " ++ e.message)], [e]⟩ := by
  refine ⟨rfl, rfl, rfl, rfl, rfl, rfl, ?_⟩
  rw [searchHeroes.eq_def, if_neg hterm]
  rfl

/-- Witness for C1 at a concrete error, id, hero and non-blank term. -/
theorem crud_failure_policy_witness :
    getHeroes (Except.error ⟨"boom"⟩)
      = ⟨[], [logMsg ("getHeroes failed: " ++ "boom")], [⟨"boom"⟩]⟩
    ∧ (getHeroes (Except.error ⟨"boom"⟩)).messages.length = 1
    ∧ getHero 11 (Except.error ⟨"boom"⟩)
      = ⟨none, [logMsg ("getHero id=" ++ toString 11 ++ " failed: " ++ "boom")], [⟨"boom"⟩]⟩
    ∧ addHero (Except.error ⟨"boom"⟩)
      = ⟨none, [logMsg ("addHero failed: " ++ "boom")], [⟨"boom"⟩]⟩
    ∧ updateHero ⟨11, "Dr Nice"⟩ (Except.error ⟨"boom"⟩)
      = ⟨none, [logMsg ("updateHero failed: " ++ "boom")], [⟨"boom"⟩]⟩
    ∧ deleteHero (HeroRef.ident 11) (Except.error ⟨"boom"⟩)
      = ⟨none, [logMsg ("deleteHero failed: " ++ "boom")], [⟨"boom"⟩]⟩
    ∧ searchHeroes "ma" (Except.error ⟨"boom"⟩)
      = ⟨[], [logMsg ("searchHeroes failed: " ++ "boom")], [⟨"boom"⟩]⟩ :=
  crud_failure_policy ⟨"boom"⟩ 11 ⟨11, "Dr Nice"⟩ (HeroRef.ident 11) "ma" (by decide)

/-- C2 counterexample: the view deletes by record equality (`h !== hero`), not
by identifier. Deleting `{id:5,name:"X"}` from a list that also holds
`{id:5,name:"Y"}` leaves a record whose identifier is 5 in the local list. -/
theorem delete_leaves_other_id5_record :
    some (Hero.mk 5 "Y")
        ∈ (componentDelete [some ⟨5, "X"⟩, some ⟨5, "Y"⟩] ⟨5, "X"⟩
            (Except.ok ⟨5, "X"⟩)).1
    ∧ (Hero.mk 5 "Y").id = 5 := by
  decide

/-- C2 (amended): when the given hero record is the only entry of the list with
identifier 5 (a single occurrence), the view's delete immediately yields a local
list with no record with identifier 5, and the list is the same whatever the
backing delete's outcome, so a failure is never rolled back. -/
theorem delete_removes_unique_id5 (heroes : List HeroEntry) (hero : Hero)
    (resp respAlt : HttpResult Hero) (hid : hero.id = 5)
    (hcount : heroes.count (some hero) = 1)
    (huniq : ∀ g : Hero, some g ∈ heroes → g.id = 5 → g = hero) :
    (∀ g : Hero, some g ∈ (componentDelete heroes hero resp).1 → g.id ≠ 5)
    ∧ (componentDelete heroes hero resp).1 = (componentDelete heroes hero respAlt).1 := by
  constructor
  · intro g hg h5
    have hmem : some g ∈ heroes ∧ some g ≠ some hero := by
      have := List.mem_filter.mp hg
      simpa using this
    exact hmem.2 (by rw [huniq g hmem.1 h5])
  · rfl

/-- Witness for C2's amended theorem on a concrete list holding one record with
identifier 5, a record with another identifier, and an absent entry. -/
theorem delete_removes_unique_id5_witness :
    (componentDelete [some ⟨5, "X"⟩, some ⟨2, "B"⟩, none] ⟨5, "X"⟩
        (Except.ok ⟨5, "X"⟩)).1
      = (componentDelete [some ⟨5, "X"⟩, some ⟨2, "B"⟩, none] ⟨5, "X"⟩
        (Except.error ⟨"delete failed"⟩)).1
    ∧ (Hero.mk 2 "B").id ≠ 5 :=
  have huniq : ∀ g : Hero, some g ∈ ([some ⟨5, "X"⟩, some ⟨2, "B"⟩, none] : List HeroEntry) →
      g.id = 5 → g = Hero.mk 5 "X" := by
    intro g hg h5
    simp only [List.mem_cons, List.not_mem_nil, or_false] at hg
    rcases hg with h | h | h
    · exact Option.some.inj h
    · rw [Option.some.inj h] at h5
      exact absurd h5 (by decide)
    · exact Option.noConfusion h
  ⟨(delete_removes_unique_id5 [some ⟨5, "X"⟩, some ⟨2, "B"⟩, none] ⟨5, "X"⟩
      (Except.ok ⟨5, "X"⟩) (Except.error ⟨"delete failed"⟩) (by decide) (by decide) huniq).2,
   (delete_removes_unique_id5 [some ⟨5, "X"⟩, some ⟨2, "B"⟩, none] ⟨5, "X"⟩
      (Except.ok ⟨5, "X"⟩) (Except.error ⟨"delete failed"⟩) (by decide) (by decide) huniq).1
      ⟨2, "B"⟩ (by decide)⟩

/-- C3: a term that is empty or all-whitespace issues no request against the
backing store and resolves immediately to the empty list, logging nothing. -/
theorem searchHeroes_blank_term (term : String) (resp : HttpResult (List Hero))
    (h : jsTrim term = "") :
    searchHeroesRequest term = none ∧ searchHeroes term resp = ⟨[], [], []⟩ := by
  constructor
  · rw [searchHeroesRequest, if_pos h]
  · rw [searchHeroes.eq_def, if_pos h]

/-- Witness for C3 on an all-whitespace term, even against a failing backend. -/
theorem searchHeroes_blank_term_witness :
    searchHeroesRequest "   " = none
    ∧ searchHeroes "   " (Except.error ⟨"boom"⟩) = ⟨[], [], []⟩ :=
  searchHeroes_blank_term "   " (Except.error ⟨"boom"⟩) (by decide)

/-- C7: the view's add with a blank name is a no-op: no create request is issued
and the local heroes list is unchanged, whatever the backend would answer. -/
theorem add_blank_name_noop (heroes : List HeroEntry) (name : String)
    (resp : HttpResult Hero) (h : jsTrim name = "") :
    componentAddRequest name = none ∧ componentAdd heroes name resp = heroes := by
  constructor
  · rw [componentAddRequest, if_pos h]
  · rw [componentAdd, if_pos h]

/-- Witness for C7 with the whitespace-only name on a nonempty list. -/
theorem add_blank_name_noop_witness :
    componentAddRequest "  " = none
    ∧ componentAdd [some ⟨11, "Dr Nice"⟩] "  " (Except.ok ⟨12, "Narco"⟩)
      = [some ⟨11, "Dr Nice"⟩] :=
  add_blank_name_noop [some ⟨11, "Dr Nice"⟩] "  " (Except.ok ⟨12, "Narco"⟩) (by decide)

/-- C8: `deleteHero` on a hero record and on its bare identifier issue the same
DELETE URL and produce identical outcomes (same emitted value, same log message,
same console errors) for every response. -/
theorem deleteHero_record_eq_ident (h : Hero) (resp : HttpResult Hero) :
    deleteHeroUrl (HeroRef.record h) = deleteHeroUrl (HeroRef.ident h.id)
    ∧ deleteHero (HeroRef.record h) resp = deleteHero (HeroRef.ident h.id) resp := by
  cases resp <;> exact ⟨rfl, rfl⟩

/-- C9: every message any service operation appends to the shared message log,
on success as on failure, begins with the tag `HeroService: `. -/
theorem service_messages_tagged :
    (∀ s, ∃ rest, logMsg s = "HeroService: " ++ rest)
    ∧ (∀ resp, ∀ m ∈ (getHeroes resp).messages, ∃ rest, m = "HeroService: " ++ rest)
    ∧ (∀ id resp, ∀ m ∈ (getHero id resp).messages, ∃ rest, m = "HeroService: " ++ rest)
    ∧ (∀ resp, ∀ m ∈ (addHero resp).messages, ∃ rest, m = "HeroService: " ++ rest)
    ∧ (∀ hero resp, ∀ m ∈ (updateHero hero resp).messages,
        ∃ rest, m = "HeroService: " ++ rest)
    ∧ (∀ ref resp, ∀ m ∈ (deleteHero ref resp).messages,
        ∃ rest, m = "HeroService: " ++ rest)
    ∧ (∀ term resp, ∀ m ∈ (searchHeroes term resp).messages,
        ∃ rest, m = "HeroService: " ++ rest) := by
  refine ⟨fun s => ⟨s, rfl⟩, ?_, ?_, ?_, ?_, ?_, ?_⟩
  · intro resp m hm
    cases resp <;> simp only [getHeroes, handleError, logMsg, List.mem_singleton] at hm <;>
      exact ⟨_, hm⟩
  · intro id resp m hm
    cases resp <;> simp only [getHero, handleError, logMsg, List.mem_singleton] at hm <;>
      exact ⟨_, hm⟩
  · intro resp m hm
    cases resp <;> simp only [addHero, handleError, logMsg, List.mem_singleton] at hm <;>
      exact ⟨_, hm⟩
  · intro hero resp m hm
    cases resp <;> simp only [updateHero, handleError, logMsg, List.mem_singleton] at hm <;>
      exact ⟨_, hm⟩
  · intro ref resp m hm
    cases resp <;> simp only [deleteHero, handleError, logMsg, List.mem_singleton] at hm <;>
      exact ⟨_, hm⟩
  · intro term resp m hm
    rw [searchHeroes.eq_def] at hm
    by_cases hblank : jsTrim term = ""
    · rw [if_pos hblank] at hm
      exact absurd hm (List.not_mem_nil m)
    · rw [if_neg hblank] at hm
      cases resp <;>
        simp only [handleError, logMsg, List.mem_singleton] at hm <;> exact ⟨_, hm⟩

/-- Witness for C9 on a concrete successful fetch and a concrete failed search. -/
theorem service_messages_tagged_witness :
    (∃ rest, "HeroService: fetched heroes" = "HeroService: " ++ rest)
    ∧ (∃ rest, "HeroService: searchHeroes failed: boom" = "HeroService: " ++ rest) :=
  ⟨service_messages_tagged.2.1 (Except.ok []) "HeroService: fetched heroes" (by decide),
   service_messages_tagged.2.2.2.2.2.2 "ma" (Except.error ⟨"boom"⟩)
     "HeroService: searchHeroes failed: boom" (by decide)⟩

/-- C10: for a name with non-whitespace content, the view's add issues the
create request and the posted record carries the trimmed name. -/
theorem add_posts_trimmed_name (name : String) (h : jsTrim name ≠ "") :
    componentAddRequest name = some ⟨jsTrim name⟩ := by
  rw [componentAddRequest, if_neg h]

/-- Witness for C10: a name with leading and trailing whitespace is posted
trimmed. -/
theorem add_posts_trimmed_name_witness :
    componentAddRequest "  Bombasto " = some ⟨"Bombasto"⟩ :=
  add_posts_trimmed_name "  Bombasto " (by decide)

/-- Unfolding lemma for `runsBy` on two or more elements, given the runs of the
tail. -/
theorem runsBy_cons_cons {α : Type} (R : α → α → Prop) [DecidableRel R]
    (a b : α) (rest t : List α) (rs : List (List α))
    (h : runsBy R (b :: rest) = (b :: t) :: rs) :
    runsBy R (a :: b :: rest)
      = if R a b then (a :: b :: t) :: rs else [a] :: (b :: t) :: rs := by
  rw [runsBy, h]

/-- The run list of a nonempty list starts with a run led by the head. -/
theorem runsBy_head {α : Type} (R : α → α → Prop) [DecidableRel R] :
    ∀ (x : α) (xs : List α), ∃ t rs, runsBy R (x :: xs) = (x :: t) :: rs
  | x, [] => ⟨[], [], rfl⟩
  | x, b :: rest => by
    obtain ⟨t, rs, h⟩ := runsBy_head R b rest
    rw [runsBy_cons_cons R x b rest t rs h]
    by_cases hR : R x b
    · rw [if_pos hR]
      exact ⟨b :: t, rs, rfl⟩
    · rw [if_neg hR]
      exact ⟨[], (b :: t) :: rs, rfl⟩

/-- Every run produced by `runsBy` is nonempty. -/
theorem runsBy_ne_nil {α : Type} (R : α → α → Prop) [DecidableRel R] :
    ∀ (l : List α), ∀ r ∈ runsBy R l, r ≠ []
  | [], r, hr => absurd hr (List.not_mem_nil r)
  | [a], r, hr => by
    simp only [runsBy, List.mem_singleton] at hr
    simp [hr]
  | a :: b :: rest, r, hr => by
    have ih := runsBy_ne_nil R (b :: rest)
    obtain ⟨t, rs, h⟩ := runsBy_head R b rest
    rw [runsBy_cons_cons R a b rest t rs h] at hr
    by_cases hR : R a b
    · rw [if_pos hR] at hr
      rcases List.mem_cons.mp hr with hc | hc
      · simp [hc]
      · refine ih r ?_
        rw [h]
        exact List.mem_cons_of_mem _ hc
    · rw [if_neg hR] at hr
      rcases List.mem_cons.mp hr with hc | hc
      · simp [hc]
      · refine ih r ?_
        rw [h]
        exact hc

/-- Concatenating the runs gives back the original list. -/
theorem runsBy_flatten {α : Type} (R : α → α → Prop) [DecidableRel R] :
    ∀ l : List α, (runsBy R l).flatten = l
  | [] => rfl
  | [a] => rfl
  | a :: b :: rest => by
    have ih := runsBy_flatten R (b :: rest)
    obtain ⟨t, rs, h⟩ := runsBy_head R b rest
    have hflat : ((b :: t) :: rs).flatten = b :: rest := by rw [← h, ih]
    rw [runsBy_cons_cons R a b rest t rs h]
    by_cases hR : R a b
    · rw [if_pos hR]
      simp only [List.flatten_cons, List.cons_append] at hflat ⊢
      rw [hflat]
    · rw [if_neg hR]
      simp only [List.flatten_cons, List.cons_append, List.nil_append] at hflat ⊢
      rw [hflat]

/-- `debounceTime` keeps, from each run of events less than the interval apart,
exactly the last event. -/
theorem debounce_eq_runsBy (interval : Nat) :
    ∀ l : List KeyEvent,
      debounce interval l
        = (runsBy (fun u v => v.time < u.time + interval) l).filterMap List.getLast?
  | [] => rfl
  | [e] => rfl
  | e :: f :: rest => by
    have ih := debounce_eq_runsBy interval (f :: rest)
    obtain ⟨t, rs, h⟩ := runsBy_head (fun u v => v.time < u.time + interval) f rest
    rw [debounce, runsBy_cons_cons (fun u v => v.time < u.time + interval) e f rest t rs h,
      ih, h]
    by_cases hR : f.time < e.time + interval
    · rw [if_pos hR, if_pos hR]
      simp only [List.filterMap_cons, List.getLast?_cons_cons]
    · rw [if_neg hR, if_neg hR]
      simp only [List.filterMap_cons]
      rfl

/-- Unfolding `distinctUntilChanged` over its first two events. -/
theorem distinctUntilChanged_cons_cons (a b : KeyEvent) (rest : List KeyEvent) :
    distinctUntilChanged (a :: b :: rest)
      = if a.term = b.term then a :: (distinctUntilChanged (b :: rest)).tail
        else a :: distinctUntilChanged (b :: rest) := by
  rw [distinctUntilChanged, distinctFrom, distinctUntilChanged]
  by_cases h : a.term = b.term
  · rw [if_pos h.symm, if_pos h, h, List.tail_cons]
  · rw [if_neg (fun hc => h hc.symm), if_neg h]

/-- `distinctUntilChanged` keeps exactly the first event of each run of adjacent
equal terms. -/
theorem distinctUntilChanged_eq_runsBy :
    ∀ l : List KeyEvent,
      distinctUntilChanged l
        = (runsBy (fun u v => u.term = v.term) l).filterMap List.head?
  | [] => rfl
  | [e] => rfl
  | a :: b :: rest => by
    have ih := distinctUntilChanged_eq_runsBy (b :: rest)
    obtain ⟨t, rs, h⟩ := runsBy_head (fun u v => u.term = v.term) b rest
    rw [distinctUntilChanged_cons_cons,
      runsBy_cons_cons (fun u v => u.term = v.term) a b rest t rs h, ih, h]
    by_cases hR : a.term = b.term
    · rw [if_pos hR, if_pos hR]
      simp only [List.filterMap_cons, List.head?_cons, List.tail_cons]
    · rw [if_neg hR, if_neg hR]
      simp only [List.filterMap_cons, List.head?_cons]

/-- After `distinctFrom prev`, the emitted events alternate terms, and the first
emitted term differs from `prev`. -/
theorem distinctFrom_chain (prev : String) :
    ∀ l : List KeyEvent,
      (distinctFrom prev l).Chain' (fun u v => u.term ≠ v.term)
      ∧ ∀ x ∈ (distinctFrom prev l).head?, x.term ≠ prev
  | [] => ⟨List.chain'_nil, by simp [distinctFrom]⟩
  | e :: rest => by
    rw [distinctFrom]
    by_cases h : e.term = prev
    · rw [if_pos h]
      exact distinctFrom_chain prev rest
    · rw [if_neg h]
      obtain ⟨hc, hh⟩ := distinctFrom_chain e.term rest
      refine ⟨List.chain'_cons'.mpr ⟨fun y hy he => hh y hy he.symm, hc⟩, ?_⟩
      intro x hx
      simp only [List.head?_cons, Option.mem_def, Option.some.injEq] at hx
      rw [← hx]
      exact h

/-- No two consecutive events emitted by `distinctUntilChanged` share a term. -/
theorem distinctUntilChanged_chain (l : List KeyEvent) :
    (distinctUntilChanged l).Chain' (fun u v => u.term ≠ v.term) := by
  cases l with
  | nil => exact List.chain'_nil
  | cons e rest =>
    rw [distinctUntilChanged]
    obtain ⟨hc, hh⟩ := distinctFrom_chain e.term rest
    exact List.chain'_cons'.mpr ⟨fun y hy he => hh y hy he.symm, hc⟩

/-- `distinctFrom` emits a subsequence of its input. -/
theorem distinctFrom_sublist (prev : String) :
    ∀ l : List KeyEvent, (distinctFrom prev l).Sublist l
  | [] => List.Sublist.refl []
  | e :: rest => by
    rw [distinctFrom]
    by_cases h : e.term = prev
    · rw [if_pos h]
      exact (distinctFrom_sublist prev rest).cons e
    · rw [if_neg h]
      exact (distinctFrom_sublist e.term rest).cons₂ e

/-- `distinctUntilChanged` emits a subsequence of its input. -/
theorem distinctUntilChanged_sublist (l : List KeyEvent) :
    (distinctUntilChanged l).Sublist l := by
  cases l with
  | nil => exact List.Sublist.refl []
  | cons e rest =>
    rw [distinctUntilChanged]
    exact (distinctFrom_sublist e.term rest).cons₂ e

/-- `debounceTime` emits a subsequence of its input. -/
theorem debounce_sublist (interval : Nat) :
    ∀ l : List KeyEvent, (debounce interval l).Sublist l
  | [] => List.Sublist.refl []
  | [e] => List.Sublist.refl [e]
  | e :: f :: rest => by
    rw [debounce]
    by_cases h : f.time < e.time + interval
    · rw [if_pos h]
      exact (debounce_sublist interval (f :: rest)).cons e
    · rw [if_neg h]
      exact (debounce_sublist interval (f :: rest)).cons₂ e

/-- The deliveries of `switchMap`, read back as issue-time/term events, form a
subsequence of the lookup events. -/
theorem switchDeliver_toEvents_sublist (oracle : SearchOracle) :
    ∀ l : List KeyEvent,
      ((switchDeliver oracle l).map (fun d => KeyEvent.mk d.issued d.term)).Sublist l
  | [] => List.Sublist.refl []
  | [e] => by
    simp only [switchDeliver, List.map_cons, List.map_nil]
    exact List.Sublist.refl [e]
  | e :: f :: rest => by
    rw [switchDeliver]
    by_cases h : (innerEmission oracle e).1 < f.time
    · rw [if_pos h]
      simp only [List.map_cons]
      exact (switchDeliver_toEvents_sublist oracle (f :: rest)).cons₂ e
    · rw [if_neg h]
      exact (switchDeliver_toEvents_sublist oracle (f :: rest)).cons e

/-- Every delivery of `switchMap` stems from one of the lookup events: it was
issued at that event's time, carries that event's term, and is delivered at the
inner observable's emission time. -/
theorem switchDeliver_mem (oracle : SearchOracle) :
    ∀ l : List KeyEvent, ∀ d ∈ switchDeliver oracle l,
      ∃ e ∈ l, d.issued = e.time ∧ d.time = (innerEmission oracle e).1 ∧ d.term = e.term
  | [], d, hd => absurd hd (List.not_mem_nil d)
  | [e], d, hd => by
    simp only [switchDeliver, List.mem_singleton] at hd
    exact ⟨e, List.mem_singleton_self e, by rw [hd], by rw [hd], by rw [hd]⟩
  | e :: f :: rest, d, hd => by
    rw [switchDeliver] at hd
    by_cases h : (innerEmission oracle e).1 < f.time
    · rw [if_pos h] at hd
      rcases List.mem_cons.mp hd with hc | hc
      · exact ⟨e, List.mem_cons_self e _, by rw [hc], by rw [hc], by rw [hc]⟩
      · obtain ⟨x, hx, h1, h2, h3⟩ := switchDeliver_mem oracle (f :: rest) d hc
        exact ⟨x, List.mem_cons_of_mem e hx, h1, h2, h3⟩
    · rw [if_neg h] at hd
      obtain ⟨x, hx, h1, h2, h3⟩ := switchDeliver_mem oracle (f :: rest) d hd
      exact ⟨x, List.mem_cons_of_mem e hx, h1, h2, h3⟩

/-- Strictly increasing arrival times, upgraded from adjacent pairs to all
pairs. -/
theorem keyTimePairwise (l : List KeyEvent)
    (h : l.Chain' (fun u v => u.time < v.time)) :
    l.Pairwise fun u v => u.time < v.time :=
  (@List.chain'_iff_pairwise KeyEvent (fun u v => u.time < v.time)
    ⟨fun _ _ _ hab hbc => Nat.lt_trans hab hbc⟩ l).mp h

/-- In a time-ordered event list, the head arrives no later than any member. -/
theorem chain_time_head_le (f : KeyEvent) (rest : List KeyEvent)
    (h : (f :: rest).Chain' (fun u v => u.time < v.time)) :
    ∀ x ∈ f :: rest, f.time ≤ x.time := by
  intro x hx
  rcases List.mem_cons.mp hx with hc | hc
  · rw [hc]
  · exact Nat.le_of_lt ((List.pairwise_cons.mp (keyTimePairwise _ h)).1 x hc)

/-- In a list with strictly increasing times, events are determined by their
arrival time. -/
theorem pairwise_time_inj (l : List KeyEvent)
    (hp : l.Pairwise fun u v => u.time < v.time) :
    ∀ x ∈ l, ∀ y ∈ l, x.time = y.time → x = y := by
  induction l with
  | nil =>
    intro x hx
    exact absurd hx (List.not_mem_nil x)
  | cons a t ih =>
    rw [List.pairwise_cons] at hp
    intro x hx y hy hxy
    rcases List.mem_cons.mp hx with h1 | h1 <;> rcases List.mem_cons.mp hy with h2 | h2
    · rw [h1, h2]
    · refine absurd hxy ?_
      rw [h1]
      exact Nat.ne_of_lt (hp.1 y h2)
    · refine absurd hxy.symm ?_
      rw [h2]
      exact Nat.ne_of_lt (hp.1 x h1)
    · exact ih hp.2 x h1 y h2 hxy

/-- When distinct runs hold time-separated events, an event pins down its run. -/
theorem runs_mem_unique {L : List (List KeyEvent)}
    (hp : L.Pairwise fun r s => ∀ u ∈ r, ∀ v ∈ s, u.time < v.time)
    {b bAlt : List KeyEvent} (hb : b ∈ L) (hbAlt : bAlt ∈ L)
    {e : KeyEvent} (he : e ∈ b) (heAlt : e ∈ bAlt) : b = bAlt := by
  induction L with
  | nil => exact absurd hb (List.not_mem_nil b)
  | cons r L' ih =>
    rw [List.pairwise_cons] at hp
    rcases List.mem_cons.mp hb with h1 | h1 <;> rcases List.mem_cons.mp hbAlt with h2 | h2
    · rw [h1, h2]
    · exact absurd (hp.1 bAlt h2 e (h1 ▸ he) e heAlt) (Nat.lt_irrefl e.time)
    · exact absurd (hp.1 b h1 e (h2 ▸ heAlt) e he) (Nat.lt_irrefl e.time)
    · exact ih hp.2 h1 h2

/-- Distinct runs of a time-ordered list hold time-separated events. -/
theorem runs_cross_pairwise (R : KeyEvent → KeyEvent → Prop) [DecidableRel R]
    (events : List KeyEvent)
    (hp : events.Pairwise fun u v => u.time < v.time) :
    (runsBy R events).Pairwise fun r s => ∀ u ∈ r, ∀ v ∈ s, u.time < v.time := by
  rw [← runsBy_flatten R events] at hp
  exact (List.pairwise_flatten.mp hp).2

/-- A debounce survivor whose arrival time lies in a given burst is that burst's
last event. -/
theorem debounce_mem_burst_eq_getLast (interval : Nat) (events : List KeyEvent)
    (hp : events.Pairwise fun u v => u.time < v.time)
    (b : List KeyEvent)
    (hb : b ∈ runsBy (fun u v => v.time < u.time + interval) events)
    (e : KeyEvent) (he : e ∈ debounce interval events)
    (ht : e.time ∈ b.map KeyEvent.time) :
    ∃ hne : b ≠ [], e = b.getLast hne := by
  rw [debounce_eq_runsBy] at he
  obtain ⟨bAlt, hbAlt, hlast⟩ := List.mem_filterMap.mp he
  have hbAltne : bAlt ≠ [] := runsBy_ne_nil _ events bAlt hbAlt
  have hlast' : bAlt.getLast hbAltne = e := by
    have := List.getLast?_eq_getLast bAlt hbAltne
    rw [this] at hlast
    exact Option.some.inj hlast
  have heAlt : e ∈ bAlt := hlast' ▸ List.getLast_mem hbAltne
  obtain ⟨x, hx, hxt⟩ := List.mem_map.mp ht
  have hxev : x ∈ events := by
    rw [← runsBy_flatten (fun u v => v.time < u.time + interval) events]
    exact List.mem_flatten.mpr ⟨b, hb, hx⟩
  have heev : e ∈ events := by
    rw [← runsBy_flatten (fun u v => v.time < u.time + interval) events]
    exact List.mem_flatten.mpr ⟨bAlt, hbAlt, heAlt⟩
  have hxe : x = e := pairwise_time_inj events hp x hxev e heev hxt
  rw [hxe] at hx
  obtain rfl : b = bAlt :=
    runs_mem_unique (runs_cross_pairwise _ events hp) hb hbAlt hx heAlt
  exact ⟨hbAltne, hlast'.symm⟩

/-- A list that is injective under `f` holds at most one element whose `f`-image
is a fixed value; in particular so does any filtering to such elements. -/
theorem length_filter_le_one {α β : Type} (f : α → β) (c : β) (p : α → Bool)
    (l : List α) (hpair : l.Pairwise fun u v => f u ≠ f v)
    (hall : ∀ x ∈ l, p x = true → f x = c) :
    (l.filter p).length ≤ 1 := by
  induction l with
  | nil => simp
  | cons a t ih =>
    rw [List.pairwise_cons] at hpair
    rw [List.filter_cons]
    by_cases hpa : p a = true
    · rw [if_pos hpa]
      have hnil : t.filter p = [] := by
        rw [List.filter_eq_nil_iff]
        intro x hx hpx
        refine hpair.1 x hx ?_
        rw [hall a (List.mem_cons_self a t) hpa, hall x (List.mem_cons_of_mem a hx) hpx]
      rw [hnil]
      simp
    · rw [if_neg hpa]
      exact ih hpair.2 fun x hx hpx => hall x (List.mem_cons_of_mem a hx) hpx

/-- A lookup whose inner observable is still pending when some later lookup
arrives is dropped by `switchMap`: no delivery carries its issue time. -/
theorem switchDeliver_drop_superseded (oracle : SearchOracle) :
    ∀ (pre : List KeyEvent) (a : KeyEvent) (post l : List KeyEvent),
      l = pre ++ a :: post →
      l.Chain' (fun u v => u.time < v.time) →
      (∃ x ∈ post, x.time ≤ (innerEmission oracle a).1) →
      ∀ d ∈ switchDeliver oracle l, d.issued ≠ a.time := by
  intro pre
  induction pre with
  | nil =>
    intro a post l hl hchain hex d hd
    subst hl
    simp only [List.nil_append] at hchain hd
    obtain ⟨x, hx, hxle⟩ := hex
    cases post with
    | nil => exact absurd hx (List.not_mem_nil x)
    | cons f rest =>
      have hf : f.time ≤ x.time := chain_time_head_le f rest hchain.tail x hx
      have hnc : ¬((innerEmission oracle a).1 < f.time) :=
        Nat.not_lt.mpr (Nat.le_trans hf hxle)
      rw [switchDeliver, if_neg hnc] at hd
      obtain ⟨e', he', h1, _, _⟩ := switchDeliver_mem oracle (f :: rest) d hd
      have hlt : a.time < e'.time :=
        (List.pairwise_cons.mp (keyTimePairwise _ hchain)).1 e' he'
      rw [h1]
      exact ne_of_gt hlt
  | cons y pre' ih =>
    intro a post l hl hchain hex d hd
    subst hl
    have hmem : a ∈ pre' ++ a :: post :=
      List.mem_append_right pre' (List.mem_cons_self a post)
    have hya : y.time < a.time :=
      (List.pairwise_cons.mp (keyTimePairwise _ hchain)).1 a hmem
    have hchain' : (pre' ++ a :: post).Chain' (fun u v => u.time < v.time) :=
      hchain.tail
    cases hpre : pre' ++ a :: post with
    | nil =>
      rw [hpre] at hmem
      exact absurd hmem (List.not_mem_nil a)
    | cons f rest =>
      rw [List.cons_append, hpre, switchDeliver] at hd
      by_cases hc : (innerEmission oracle y).1 < f.time
      · rw [if_pos hc] at hd
        rcases List.mem_cons.mp hd with h1 | h1
        · rw [h1]
          exact Nat.ne_of_lt hya
        · rw [← hpre] at h1
          exact ih a post (pre' ++ a :: post) rfl hchain' hex d h1
      · rw [if_neg hc] at hd
        rw [← hpre] at hd
        exact ih a post (pre' ++ a :: post) rfl hchain' hex d hd

/-- Deliveries of `switchMap` preserve issuance order and occur at strictly
increasing delivery times. -/
theorem switchDeliver_ordered (oracle : SearchOracle) :
    ∀ l : List KeyEvent,
      l.Chain' (fun u v => u.time < v.time) →
      (∀ e ∈ l, e.time ≤ (innerEmission oracle e).1) →
      (switchDeliver oracle l).Chain'
        (fun d dNext => d.issued < dNext.issued ∧ d.time < dNext.time)
  | [], _, _ => List.chain'_nil
  | [e], _, _ => List.chain'_singleton _
  | e :: f :: rest, hchain, hcausal => by
    have ih := switchDeliver_ordered oracle (f :: rest) hchain.tail
      fun x hx => hcausal x (List.mem_cons_of_mem e hx)
    rw [switchDeliver]
    by_cases hc : (innerEmission oracle e).1 < f.time
    · rw [if_pos hc]
      refine List.chain'_cons'.mpr ⟨?_, ih⟩
      intro dNext hdNext
      have hdmem : dNext ∈ switchDeliver oracle (f :: rest) :=
        List.mem_of_mem_head? hdNext
      obtain ⟨x, hx, h1, h2, _⟩ := switchDeliver_mem oracle (f :: rest) dNext hdmem
      have hfx : f.time ≤ x.time := chain_time_head_le f rest hchain.tail x hx
      have hef : e.time < f.time := (List.chain'_cons.mp hchain).1
      constructor
      · show e.time < dNext.issued
        rw [h1]
        exact Nat.lt_of_lt_of_le hef hfx
      · show (innerEmission oracle e).1 < dNext.time
        rw [h2]
        exact Nat.lt_of_lt_of_le hc
          (Nat.le_trans hfx (hcausal x (List.mem_cons_of_mem e hx)))
    · rw [if_neg hc]
      exact ih

/-- C5: for time-ordered lookups whose responses never arrive before they are
issued, a lookup still pending when a later lookup is issued is never delivered,
and the delivered results keep the order in which their triggering terms were
accepted, at strictly increasing delivery times. -/
theorem superseded_lookup_never_delivered (oracle : SearchOracle) (l : List KeyEvent)
    (hinc : l.Chain' (fun u v => u.time < v.time))
    (hcausal : ∀ e ∈ l, e.time ≤ (innerEmission oracle e).1) :
    (∀ pre a post, l = pre ++ a :: post →
        (∃ x ∈ post, x.time ≤ (innerEmission oracle a).1) →
        ∀ d ∈ switchDeliver oracle l, d.issued ≠ a.time)
    ∧ (switchDeliver oracle l).Chain'
        (fun d dNext => d.issued < dNext.issued ∧ d.time < dNext.time) :=
  ⟨fun pre a post hl hex => switchDeliver_drop_superseded oracle pre a post l hl hinc hex,
   switchDeliver_ordered oracle l hinc hcausal⟩

/-- Witness for C5: the lookup for term `a` (response pending until time 1000)
is superseded by the lookup for `b` issued at time 400, so no delivery carries
issue time 0, and the delivery stream is ordered. -/
theorem superseded_lookup_witness :
    (Delivery.mk 400 450 "b" []).issued ≠ (KeyEvent.mk 0 "a").time
    ∧ (switchDeliver
        (fun u t => if t = "a" then (u + 1000, Except.ok []) else (u + 50, Except.ok []))
        [⟨0, "a"⟩, ⟨400, "b"⟩]).Chain'
        (fun d dNext => d.issued < dNext.issued ∧ d.time < dNext.time) :=
  ⟨(superseded_lookup_never_delivered
      (fun u t => if t = "a" then (u + 1000, Except.ok []) else (u + 50, Except.ok []))
      [⟨0, "a"⟩, ⟨400, "b"⟩]
      (List.chain'_cons.mpr ⟨by decide, List.chain'_singleton _⟩)
      (by decide)).1
      [] ⟨0, "a"⟩ [⟨400, "b"⟩] rfl ⟨⟨400, "b"⟩, by decide, by decide⟩
      ⟨400, 450, "b", []⟩ (by decide),
   (superseded_lookup_never_delivered
      (fun u t => if t = "a" then (u + 1000, Except.ok []) else (u + 50, Except.ok []))
      [⟨0, "a"⟩, ⟨400, "b"⟩]
      (List.chain'_cons.mpr ⟨by decide, List.chain'_singleton _⟩)
      (by decide)).2⟩

/-- C6: the pipeline's lookup list keeps exactly the first of each run of
adjacent equal surviving terms — a surviving term equal to its predecessor
triggers no lookup — and no two consecutive lookups share a term. -/
theorem dedup_keeps_first_of_run (events : List KeyEvent) :
    pipelineLookups events
      = (runsBy (fun u v => u.term = v.term)
          ((debounce debounceInterval events).map (emitAt debounceInterval))).filterMap
          List.head?
    ∧ (pipelineLookups events).Chain' (fun u v => u.term ≠ v.term) :=
  ⟨distinctUntilChanged_eq_runsBy _, distinctUntilChanged_chain _⟩

/-- C4: for a time-ordered keystroke sequence, each burst — consecutive
keystrokes less than the debounce interval apart — yields at most one delivered
result, and any result issued from within the burst stems from the burst's last
term, issued at that last keystroke's time plus the interval. -/
theorem burst_delivers_at_most_last (oracle : SearchOracle) (events : List KeyEvent)
    (hinc : events.Chain' (fun u v => u.time < v.time))
    (b : List KeyEvent) (hb : b ∈ bursts events) :
    ((heroesStream oracle events).filter
        (fun d => decide (d.issued ∈ b.map (fun e => e.time + debounceInterval)))).length
        ≤ 1
    ∧ ∀ d ∈ heroesStream oracle events,
        d.issued ∈ b.map (fun e => e.time + debounceInterval) →
        ∃ hne : b ≠ [], d.term = (b.getLast hne).term
          ∧ d.issued = (b.getLast hne).time + debounceInterval := by
  have hp : events.Pairwise fun u v => u.time < v.time := keyTimePairwise events hinc
  rw [bursts] at hb
  have hneB : b ≠ [] := runsBy_ne_nil _ events b hb
  have hDsub :
      ((switchDeliver oracle (pipelineLookups events)).map
        (fun d => KeyEvent.mk d.issued d.term)).Sublist (pipelineLookups events) :=
    switchDeliver_toEvents_sublist oracle _
  have hLsub :
      (pipelineLookups events).Sublist
        ((debounce debounceInterval events).map (emitAt debounceInterval)) := by
    rw [pipelineLookups]
    exact distinctUntilChanged_sublist _
  have hpart2 : ∀ d ∈ heroesStream oracle events,
      d.issued ∈ b.map (fun e => e.time + debounceInterval) →
      ∃ hne : b ≠ [], d.term = (b.getLast hne).term
        ∧ d.issued = (b.getLast hne).time + debounceInterval := by
    intro d hd hdmem
    have hdev : KeyEvent.mk d.issued d.term ∈ pipelineLookups events := by
      refine List.Sublist.mem ?_ hDsub
      exact List.mem_map_of_mem (fun d => KeyEvent.mk d.issued d.term) hd
    have hdS : KeyEvent.mk d.issued d.term
        ∈ (debounce debounceInterval events).map (emitAt debounceInterval) :=
      List.Sublist.mem hdev hLsub
    obtain ⟨e0, he0, heq⟩ := List.mem_map.mp hdS
    have heqt : e0.time + debounceInterval = d.issued := congrArg KeyEvent.time heq
    have heqs : e0.term = d.term := congrArg KeyEvent.term heq
    obtain ⟨x, hx, hxt⟩ := List.mem_map.mp hdmem
    have hx0 : x.time = e0.time := by omega
    have htmem : e0.time ∈ b.map KeyEvent.time := List.mem_map.mpr ⟨x, hx, hx0⟩
    obtain ⟨hne, hlast⟩ :=
      debounce_mem_burst_eq_getLast debounceInterval events hp b hb e0 he0 htmem
    refine ⟨hne, ?_, ?_⟩
    · rw [← heqs, hlast]
    · rw [← heqt, hlast]
  refine ⟨?_, hpart2⟩
  have hSpair :
      ((debounce debounceInterval events).map (emitAt debounceInterval)).Pairwise
        (fun u v => u.time < v.time) := by
    rw [List.pairwise_map]
    exact (List.Pairwise.sublist (debounce_sublist debounceInterval events) hp).imp
      fun h => Nat.add_lt_add_right h debounceInterval
  have hDpair :
      (switchDeliver oracle (pipelineLookups events)).Pairwise
        (fun d dNext => d.issued ≠ dNext.issued) := by
    have h1 := List.Pairwise.sublist hDsub (List.Pairwise.sublist hLsub hSpair)
    rw [List.pairwise_map] at h1
    exact h1.imp fun h => Nat.ne_of_lt h
  refine length_filter_le_one Delivery.issued ((b.getLast hneB).time + debounceInterval)
    _ _ hDpair ?_
  intro d hd hpd
  have hdmem : d.issued ∈ b.map (fun e => e.time + debounceInterval) :=
    of_decide_eq_true hpd
  obtain ⟨hne, _, hissued⟩ := hpart2 d hd hdmem
  exact hissued

/-- Witness for C4: the keystrokes at times 0 and 100 form one burst; at most
one delivery is issued from that burst. -/
theorem burst_delivers_witness :
    ((heroesStream (fun u _ => (u + 50, Except.ok []))
        [⟨0, "a"⟩, ⟨100, "ab"⟩, ⟨600, "b"⟩]).filter
        (fun d => decide (d.issued ∈
          ([⟨0, "a"⟩, ⟨100, "ab"⟩] : List KeyEvent).map
            (fun e => e.time + debounceInterval)))).length ≤ 1 :=
  (burst_delivers_at_most_last (fun u _ => (u + 50, Except.ok []))
    [⟨0, "a"⟩, ⟨100, "ab"⟩, ⟨600, "b"⟩]
    (List.chain'_cons.mpr ⟨by decide,
      List.chain'_cons.mpr ⟨by decide, List.chain'_singleton _⟩⟩)
    [⟨0, "a"⟩, ⟨100, "ab"⟩] (by decide)).1
